import Mathlib

/-!
Verification of the actor-critic notebook (`notebooks/actor-critic.ipynb`).

The numeric code of the notebook (float32 tensors) is modelled over `ℝ`;
integer-typed rewards (`np.int32`) are modelled over `ℤ`, and the
running-average bookkeeping of the training loop (Python ints and
`statistics.mean`) over `ℤ`/`ℚ`.  Tensors are modelled as lists in the
obvious way; a `tf.TensorArray` written at indices `0..k-1` and stacked is
the list of its elements in order.
-/

namespace ActorCritic

/-- Model of `eps = np.finfo(np.float32).eps.item()`: the float32 machine
epsilon, exactly `2⁻²³`. -/
noncomputable def eps : ℝ := 1 / 2 ^ 23

/-- Model of `tf.math.reduce_mean` on a 1-D tensor: sum divided by length
(with the `ℝ`-convention `x / 0 = 0` for the empty tensor, which the
claims never hit). -/
noncomputable def reduce_mean (xs : List ℝ) : ℝ := xs.sum / xs.length

/-- Model of `tf.math.reduce_std` on a 1-D tensor: the population standard
deviation, the square root of the mean squared deviation from the mean. -/
noncomputable def reduce_std (xs : List ℝ) : ℝ :=
  Real.sqrt (reduce_mean (xs.map (fun x => (x - reduce_mean xs) ^ 2)))

/-- The backward accumulation loop of `get_expected_return`: it walks the
(already reversed) reward list keeping the running discounted sum
`discounted_sum`, writing `reward + gamma * discounted_sum` at each step.
The argument `s` is the current value of `discounted_sum` (initially `0.0`). -/
noncomputable def discountLoop (gamma : ℝ) : List ℝ → ℝ → List ℝ
  | [], _ => []
  | r :: rs, s => (r + gamma * s) :: discountLoop gamma rs (r + gamma * s)

/-- The raw (unstandardized) returns of `get_expected_return`:
`returns.stack()[::-1]` after the backward loop over `rewards[::-1]`. -/
noncomputable def raw_returns (rewards : List ℝ) (gamma : ℝ) : List ℝ :=
  (discountLoop gamma rewards.reverse 0).reverse

/-- Model of `get_expected_return(rewards, gamma, standardize)`.  The
`tf.cast` of the int32 rewards to float32 is modelled by callers passing
the real-valued image of the reward list.  When `standardize` is set the
returns are shifted by their mean and divided by their standard deviation
plus `eps`. -/
noncomputable def get_expected_return (rewards : List ℝ) (gamma : ℝ)
    (standardize : Bool := true) : List ℝ :=
  let returns := raw_returns rewards gamma
  if standardize then
    returns.map (fun x => (x - reduce_mean returns) / (reduce_std returns + eps))
  else returns

/-- Model of `tf.nn.softmax` on a 1-D logits tensor. -/
noncomputable def softmax (logits : List ℝ) : List ℝ :=
  logits.map (fun l => Real.exp l / (logits.map Real.exp).sum)

/-- Model of `run_episode(initial_state, model, max_steps)`.  The
environment (`env_step`, a wrapper of `env.step`) is modelled as a
transition function `envStep : S → ℕ → S × ℤ × Bool` giving next state,
int32 reward and done flag; the network as `model : S → List ℝ × ℝ`
(action logits and squeezed critic value); the categorical sampling
`tf.random.categorical` as an abstract choice `choose : S → ℕ`.  Each loop
iteration writes the chosen action's softmax probability, the critic value
and the reward at index `t`, then breaks if `done`; the three stacked
TensorArrays are the three result lists. -/
noncomputable def run_episode {S : Type} (envStep : S → ℕ → S × ℤ × Bool)
    (model : S → List ℝ × ℝ) (choose : S → ℕ) :
    S → ℕ → List ℝ × List ℝ × List ℤ
  | _, 0 => ([], [], [])
  | s, max_steps + 1 =>
    let lv := model s
    let a := choose s
    let p := (softmax lv.1).getD a 0
    let srd := envStep s a
    if srd.2.2 then ([p], [lv.2], [srd.2.1])
    else
      let rest := run_episode envStep model choose srd.1 max_steps
      (p :: rest.1, lv.2 :: rest.2.1, srd.2.1 :: rest.2.2)

/-- The number of environment steps `run_episode` actually takes: one per
loop iteration, stopping at the first `done` flag or at `max_steps`. -/
def episode_steps {S : Type} (envStep : S → ℕ → S × ℤ × Bool)
    (choose : S → ℕ) : S → ℕ → ℕ
  | _, 0 => 0
  | s, max_steps + 1 =>
    let srd := envStep s (choose s)
    if srd.2.2 then 1 else 1 + episode_steps envStep choose srd.1 max_steps

/-- The element-wise Keras Huber loss with the default `delta = 1.0`:
`0.5·e²` for `|e| ≤ 1` and `|e| − 0.5` beyond. -/
noncomputable def huber1 (e : ℝ) : ℝ := if |e| ≤ 1 then e ^ 2 / 2 else |e| - 1 / 2

/-- Model of `huber_loss = tf.keras.losses.Huber(reduction=SUM)` applied as
`huber_loss(y_true, y_pred)`: the element-wise Huber loss of the error
`y_pred − y_true`, summed (not averaged) over the episode, as happens for
the `[n,1]`-shaped tensors `train_step` passes in. -/
noncomputable def huber_loss (y_true y_pred : List ℝ) : ℝ :=
  (List.zipWith (fun t p => huber1 (p - t)) y_true y_pred).sum

/-- Model of `compute_loss(action_probs, values, returns)`: the advantage
is `returns − values` element-wise, the actor loss is
`−Σ log(action_probs)·advantage` and the critic loss is the summed Huber
loss between values and returns. -/
noncomputable def compute_loss (action_probs values returns : List ℝ) : ℝ :=
  let advantage := List.zipWith (fun g v => g - v) returns values
  let action_log_probs := action_probs.map Real.log
  let actor_loss := -(List.zipWith (fun l a => l * a) action_log_probs advantage).sum
  actor_loss + huber_loss values returns

/-- `min_episodes_criterion = 100`, the Reward History capacity. -/
def min_episodes_criterion : ℕ := 100

/-- `max_episodes = 10000`, the episode budget of the training loop. -/
def max_episodes : ℕ := 10000

/-- `reward_threshold = 475`, the success threshold on the running average. -/
def reward_threshold : ℚ := 475

/-- Model of appending to `episodes_reward = collections.deque(maxlen=...)`:
beyond capacity, the oldest (leftmost) entries are dropped. -/
def deque_append (maxlen : ℕ) (q : List ℤ) (x : ℤ) : List ℤ :=
  if q.length < maxlen then q ++ [x] else (q ++ [x]).drop (q.length + 1 - maxlen)

/-- Model of `statistics.mean` on the integer reward window, as an exact
rational. -/
def listMean (q : List ℤ) : ℚ := (q.sum : ℚ) / q.length

/-- The break test of the training loop, checked after episode `i`
(0-based): `running_reward > reward_threshold and i >= min_episodes_criterion`. -/
def break_cond (i : ℕ) (running_reward : ℚ) : Bool :=
  decide (reward_threshold < running_reward) &&
    decide (min_episodes_criterion ≤ i)

/-- The training loop stops after episode `i` exactly when the break test
fires or the `tqdm.trange(max_episodes)` range is exhausted. -/
def stops_after (i : ℕ) (running_reward : ℚ) : Bool :=
  break_cond i running_reward || decide (i + 1 = max_episodes)

/-- The stop condition in the words of the spec (for comparison with
`stops_after`): the running average exceeds the success threshold AND at
least `min_episodes_criterion` episodes have elapsed — after 0-based
episode `i`, the number of elapsed episodes is `i + 1` — OR the maximum
episode count is reached. -/
def spec_stop_condition (i : ℕ) (running_reward : ℚ) : Bool :=
  (decide (reward_threshold < running_reward) &&
    decide (min_episodes_criterion ≤ i + 1)) || decide (i + 1 = max_episodes)

/-- A TensorFlow value flowing from `run_episode` into `train_step`:
either a stacked 1-D tensor, or a `tf.TensorArray` object holding the same
element sequence.  Because of the `actions_probs = action_probs.stack()`
typo, `run_episode` stacks into the fresh name `actions_probs` but returns
the un-stacked TensorArray `action_probs` as its first component, while
`values` and `rewards` are reassigned to their stacked tensors. -/
inductive TFValue where
  | tensor : List ℝ → TFValue
  | tensorArray : List ℝ → TFValue

/-- Model of `tf.expand_dims(x, 1)` on an episode-long value: on an `[n]`
tensor it yields the `[n,1]` column, carrying the same element sequence;
on a `tf.TensorArray` argument, `convert_to_tensor` has no conversion
registered and raises `TypeError`, modelled as `none`. -/
def expand_dims : TFValue → Option (List ℝ)
  | TFValue.tensor xs => some xs
  | TFValue.tensorArray _ => none

/-- Model of `train_step(...)`: run one episode — whose first component
is, due to the `actions_probs` typo, the un-stacked TensorArray — compute
the standardized returns, then apply `tf.expand_dims(·, 1)` to action
probabilities, values and returns.  Only if all three conversions succeed
is the combined loss computed (driving the gradient update of the model
parameters, a side effect outside this functional model) and
`episode_reward = tf.math.reduce_sum(rewards)` returned; the `TypeError`
aborts the step with no return value.  The `tf.cast` of the int32 rewards
to float32 inside `get_expected_return` is the `ℤ → ℝ` coercion. -/
noncomputable def train_step {S : Type} (envStep : S → ℕ → S × ℤ × Bool)
    (model : S → List ℝ × ℝ) (choose : S → ℕ) (gamma : ℝ)
    (initial_state : S) (max_steps_per_episode : ℕ) : Option ℤ :=
  let per := run_episode envStep model choose initial_state max_steps_per_episode
  let returns := get_expected_return (per.2.2.map (fun r => (r : ℝ))) gamma true
  match expand_dims (TFValue.tensorArray per.1),
      expand_dims (TFValue.tensor per.2.1),
      expand_dims (TFValue.tensor returns) with
  | some ps, some vs, some gs =>
    let _loss := compute_loss ps vs gs
    some per.2.2.sum
  | _, _, _ => none

/-- The per-episode bookkeeping of the training loop:
`episodes_reward.append(episode_reward)` followed by
`running_reward = statistics.mean(episodes_reward)`. -/
def loop_body (q : List ℤ) (episode_reward : ℤ) : List ℤ × ℚ :=
  let q' := deque_append min_episodes_criterion q episode_reward
  (q', listMean q')

theorem discountLoop_length (gamma : ℝ) (l : List ℝ) (s : ℝ) :
    (discountLoop gamma l s).length = l.length := by
  induction l generalizing s with
  | nil => rfl
  | cons r rs ih => simp [discountLoop, ih]

theorem discountLoop_getD_zero (gamma : ℝ) (l : List ℝ) (s : ℝ) (h : l ≠ []) :
    (discountLoop gamma l s).getD 0 0 = l.getD 0 0 + gamma * s := by
  cases l with
  | nil => exact absurd rfl h
  | cons r rs => simp [discountLoop]

theorem discountLoop_getD_succ (gamma : ℝ) (l : List ℝ) (s : ℝ) (i : ℕ)
    (h : i + 1 < l.length) :
    (discountLoop gamma l s).getD (i + 1) 0 =
      l.getD (i + 1) 0 + gamma * (discountLoop gamma l s).getD i 0 := by
  induction l generalizing s i with
  | nil => simp at h
  | cons r rs ih =>
    cases i with
    | zero =>
      cases rs with
      | nil => simp at h
      | cons r' rs' => simp [discountLoop]
    | succ j =>
      have hj : j + 1 < rs.length := by simpa using h
      simpa [discountLoop] using ih (r + gamma * s) j hj

theorem raw_returns_length (rewards : List ℝ) (gamma : ℝ) :
    (raw_returns rewards gamma).length = rewards.length := by
  simp [raw_returns, discountLoop_length]

/-- Indexing a reversed list via `getD`, for indices in range. -/
theorem getD_reverse (l : List ℝ) (i : ℕ) (h : i < l.length) :
    l.reverse.getD i 0 = l.getD (l.length - 1 - i) 0 := by
  have h' : i < l.reverse.length := by simpa using h
  have h'' : l.length - 1 - i < l.length := by omega
  rw [List.getD_eq_getElem l.reverse 0 h', List.getD_eq_getElem l 0 h'',
    List.getElem_reverse]

theorem raw_returns_last (rewards : List ℝ) (gamma : ℝ) (i : ℕ)
    (h : i + 1 = rewards.length) :
    (raw_returns rewards gamma).getD i 0 = rewards.getD i 0 := by
  have hlen : (discountLoop gamma rewards.reverse 0).length = rewards.length := by
    simp [discountLoop_length]
  have hne : rewards.reverse ≠ [] := by
    intro hnil
    have : rewards.length = 0 := by simpa using congrArg List.length hnil
    omega
  have hi : i < (discountLoop gamma rewards.reverse 0).length := by omega
  rw [raw_returns, getD_reverse _ i hi, hlen]
  have : rewards.length - 1 - i = 0 := by omega
  rw [this, discountLoop_getD_zero gamma _ 0 hne]
  have h0 : (0 : ℕ) < rewards.length := by omega
  rw [getD_reverse rewards 0 (by omega)]
  ring_nf
  congr 1
  omega

theorem raw_returns_step (rewards : List ℝ) (gamma : ℝ) (i : ℕ)
    (h : i + 1 < rewards.length) :
    (raw_returns rewards gamma).getD i 0 =
      rewards.getD i 0 + gamma * (raw_returns rewards gamma).getD (i + 1) 0 := by
  have hlen : (discountLoop gamma rewards.reverse 0).length = rewards.length := by
    simp [discountLoop_length]
  have hi : i < (discountLoop gamma rewards.reverse 0).length := by omega
  have hi1 : i + 1 < (discountLoop gamma rewards.reverse 0).length := by omega
  rw [raw_returns, getD_reverse _ i hi, getD_reverse _ (i + 1) hi1, hlen]
  have hj : rewards.length - 1 - i = (rewards.length - 1 - (i + 1)) + 1 := by omega
  rw [hj, discountLoop_getD_succ gamma _ 0 _ (by simp; omega)]
  rw [getD_reverse rewards _ (by omega)]
  congr 2
  omega

theorem episode_steps_le {S : Type} (envStep : S → ℕ → S × ℤ × Bool)
    (choose : S → ℕ) (s : S) (max_steps : ℕ) :
    episode_steps envStep choose s max_steps ≤ max_steps := by
  induction max_steps generalizing s with
  | zero => simp [episode_steps]
  | succ m ih =>
    by_cases hd : (envStep s (choose s)).2.2
    · simp [episode_steps, hd]
    · have := ih (envStep s (choose s)).1
      simp [episode_steps, hd]
      omega

/-- C2. The three sequences returned by `run_episode` (chosen-action
probabilities, value estimates, rewards) have the same length, equal to
the number of environment steps actually taken, which is at most
`max_steps`; and if the environment never signals termination, exactly
`max_steps` steps are taken. -/
theorem run_episode_lengths {S : Type} (envStep : S → ℕ → S × ℤ × Bool)
    (model : S → List ℝ × ℝ) (choose : S → ℕ) (s : S) (max_steps : ℕ) :
    (run_episode envStep model choose s max_steps).1.length =
      episode_steps envStep choose s max_steps ∧
    (run_episode envStep model choose s max_steps).2.1.length =
      episode_steps envStep choose s max_steps ∧
    (run_episode envStep model choose s max_steps).2.2.length =
      episode_steps envStep choose s max_steps ∧
    episode_steps envStep choose s max_steps ≤ max_steps ∧
    ((∀ t a, (envStep t a).2.2 = false) →
      episode_steps envStep choose s max_steps = max_steps) := by
  refine ⟨?_, ?_, ?_, episode_steps_le envStep choose s max_steps, ?_⟩
  · induction max_steps generalizing s with
    | zero => simp [run_episode, episode_steps]
    | succ m ih =>
      by_cases hd : (envStep s (choose s)).2.2
      · simp [run_episode, episode_steps, hd]
      · have := ih (envStep s (choose s)).1
        simp [run_episode, episode_steps, hd]
        omega
  · induction max_steps generalizing s with
    | zero => simp [run_episode, episode_steps]
    | succ m ih =>
      by_cases hd : (envStep s (choose s)).2.2
      · simp [run_episode, episode_steps, hd]
      · have := ih (envStep s (choose s)).1
        simp [run_episode, episode_steps, hd]
        omega
  · induction max_steps generalizing s with
    | zero => simp [run_episode, episode_steps]
    | succ m ih =>
      by_cases hd : (envStep s (choose s)).2.2
      · simp [run_episode, episode_steps, hd]
      · have := ih (envStep s (choose s)).1
        simp [run_episode, episode_steps, hd]
        omega
  · intro hnever
    induction max_steps generalizing s with
    | zero => simp [episode_steps]
    | succ m ih =>
      have := ih (envStep s (choose s)).1
      simp [episode_steps, hnever]
      omega

/-- Witness for C2: a one-state environment that never terminates, run for
3 steps, takes exactly 3 steps. -/
theorem run_episode_lengths_witness :
    episode_steps (S := Unit) (fun _ _ => ((), 1, false))
      (fun _ => 0) () 3 = 3 :=
  (run_episode_lengths (S := Unit) (fun _ _ => ((), 1, false))
    (fun _ => ([0], 0)) (fun _ => 0) () 3).2.2.2.2 (fun _ _ => rfl)

theorem zipWith_sum_eq (f : ℝ → ℝ → ℝ) :
    ∀ A B : List ℝ, A.length = B.length →
      (List.zipWith f A B).sum =
        ∑ i in Finset.range A.length, f (A.getD i 0) (B.getD i 0)
  | [], [], _ => by simp
  | [], b :: B, h => by simp at h
  | a :: A, [], h => by simp at h
  | a :: A, b :: B, h => by
    have h' : A.length = B.length := by simpa using h
    rw [List.zipWith_cons_cons, List.sum_cons, zipWith_sum_eq f A B h',
      List.length_cons, Finset.sum_range_succ']
    simp [add_comm]

theorem huber_loss_range_sum (V G : List ℝ) (h : V.length = G.length) :
    huber_loss V G = ∑ i in Finset.range V.length,
      huber1 (G.getD i 0 - V.getD i 0) :=
  zipWith_sum_eq (fun t p => huber1 (p - t)) V G h

theorem actor_sum_range (P V G : List ℝ) (hPV : P.length = V.length)
    (hPG : P.length = G.length) :
    (List.zipWith (fun l a => l * a) (P.map Real.log)
        (List.zipWith (fun g v => g - v) G V)).sum =
      ∑ i in Finset.range P.length,
        Real.log (P.getD i 0) * (G.getD i 0 - V.getD i 0) := by
  have hlen : (P.map Real.log).length =
      (List.zipWith (fun g v : ℝ => g - v) G V).length := by
    simp; omega
  rw [zipWith_sum_eq _ _ _ hlen]
  rw [List.length_map]
  refine Finset.sum_congr rfl ?_
  intro i hi
  have hiP : i < P.length := Finset.mem_range.mp hi
  have hiM : i < (P.map Real.log).length := by simpa using hiP
  have hiZ : i < (List.zipWith (fun g v : ℝ => g - v) G V).length := by
    simp; omega
  rw [List.getD_eq_getElem _ 0 hiM, List.getD_eq_getElem _ 0 hiZ,
    List.getElem_map, List.getElem_zipWith,
    List.getD_eq_getElem P 0 hiP, List.getD_eq_getElem G 0 (by omega),
    List.getD_eq_getElem V 0 (by omega)]

/-- C3. For equal-length inputs, `compute_loss` returns
`−Σᵢ log(P[i])·(G[i]−V[i])` plus the Huber loss between `V` and `G`
summed over the episode: total loss = actor loss + critic loss with
advantage `G − V`. -/
theorem compute_loss_formula (P V G : List ℝ) (n : ℕ) (hP : P.length = n)
    (hV : V.length = n) (hG : G.length = n) :
    compute_loss P V G =
      -(∑ i in Finset.range n,
          Real.log (P.getD i 0) * (G.getD i 0 - V.getD i 0)) +
      ∑ i in Finset.range n, huber1 (G.getD i 0 - V.getD i 0) := by
  rw [compute_loss, huber_loss_range_sum V G (by omega),
    actor_sum_range P V G (by omega) (by omega), hP, hV]

/-- Witness for C3: the loss formula instantiated on a concrete
length-2 episode. -/
theorem compute_loss_formula_witness :
    compute_loss [1, 1] [0, 0] [1, 2] =
      -(∑ i in Finset.range 2,
          Real.log (([1, 1] : List ℝ).getD i 0) *
            (([1, 2] : List ℝ).getD i 0 - ([0, 0] : List ℝ).getD i 0)) +
      ∑ i in Finset.range 2,
        huber1 (([1, 2] : List ℝ).getD i 0 - ([0, 0] : List ℝ).getD i 0) :=
  compute_loss_formula [1, 1] [0, 0] [1, 2] 2 rfl rfl rfl

theorem huber1_nonneg (e : ℝ) : 0 ≤ huber1 e := by
  unfold huber1
  split
  · positivity
  · rename_i h
    have : (1 : ℝ) < |e| := lt_of_not_le h
    linarith

theorem huber1_zero : huber1 0 = 0 := by
  simp [huber1]

theorem huber1_mono {a b : ℝ} (h : |a| ≤ |b|) : huber1 a ≤ huber1 b := by
  unfold huber1
  by_cases hb : |b| ≤ 1
  · have ha : |a| ≤ 1 := le_trans h hb
    rw [if_pos ha, if_pos hb]
    have := mul_self_le_mul_self (abs_nonneg a) h
    have ha2 : a ^ 2 = |a| * |a| := by rw [← sq_abs a]; ring
    have hb2 : b ^ 2 = |b| * |b| := by rw [← sq_abs b]; ring
    nlinarith
  · by_cases ha : |a| ≤ 1
    · rw [if_pos ha, if_neg hb]
      have hb1 : (1 : ℝ) < |b| := lt_of_not_le hb
      have ha2 : a ^ 2 = |a| * |a| := by rw [← sq_abs a]; ring
      nlinarith [abs_nonneg a]
    · rw [if_neg ha, if_neg hb]
      linarith

theorem huber_loss_nonneg : ∀ V G : List ℝ, 0 ≤ huber_loss V G
  | [], _ => by simp [huber_loss]
  | _ :: _, [] => by simp [huber_loss]
  | v :: V, g :: G => by
    have := huber_loss_nonneg V G
    have := huber1_nonneg (g - v)
    simp only [huber_loss, List.zipWith_cons_cons, List.sum_cons] at *
    linarith

theorem huber_loss_self : ∀ V : List ℝ, huber_loss V V = 0
  | [] => by simp [huber_loss]
  | v :: V => by
    have := huber_loss_self V
    simp only [huber_loss, List.zipWith_cons_cons, List.sum_cons] at *
    simp [this, huber1_zero]

/-- C4. The critic-loss component `huber_loss` of `compute_loss` is
non-negative, is `0` when the value estimates equal the returns exactly,
and is monotone in the element-wise gap `|G[i] − V[i]|`. -/
theorem critic_loss_props :
    (∀ V G : List ℝ, 0 ≤ huber_loss V G) ∧
    (∀ V : List ℝ, huber_loss V V = 0) ∧
    (∀ V G V' G' : List ℝ, V.length = G.length → V'.length = G'.length →
      V.length = V'.length →
      (∀ i, i < V.length →
        |G.getD i 0 - V.getD i 0| ≤ |G'.getD i 0 - V'.getD i 0|) →
      huber_loss V G ≤ huber_loss V' G') := by
  refine ⟨huber_loss_nonneg, huber_loss_self, ?_⟩
  intro V G V' G' hVG hVG' hVV' hgap
  rw [huber_loss_range_sum V G hVG, huber_loss_range_sum V' G' hVG', hVV']
  refine Finset.sum_le_sum ?_
  intro i hi
  have hi' : i < V.length := by
    have := Finset.mem_range.mp hi
    omega
  exact huber1_mono (hgap i hi')

/-- Witness for C4: the monotonicity part applied to a concrete pair of
length-1 episodes with gaps `1 ≤ 2`. -/
theorem critic_loss_props_witness :
    huber_loss [0] [1] ≤ huber_loss [0] [2] :=
  critic_loss_props.2.2 [0] [1] [0] [2] rfl rfl rfl
    (by
      intro i hi
      have : i = 0 := by simpa using hi
      subst this
      norm_num)

/-- C5. The Reward History window never exceeds its capacity; once full,
appending evicts exactly the oldest entry; with capacity 3, appending
`[10, 20, 30, 40]` leaves `[20, 30, 40]` with running average `30`. -/
theorem reward_history_window (cap : ℕ) (q : List ℤ) (x : ℤ) :
    (q.length ≤ cap → (deque_append cap q x).length ≤ cap) ∧
    (q.length = cap → 0 < cap → deque_append cap q x = q.tail ++ [x]) ∧
    List.foldl (deque_append 3) [] [10, 20, 30, 40] = [20, 30, 40] ∧
    listMean [20, 30, 40] = 30 := by
  refine ⟨?_, ?_, by decide, by norm_num [listMean]⟩
  · intro hle
    unfold deque_append
    split
    · simp; omega
    · rename_i hnlt
      simp
      omega
  · intro hlen hpos
    unfold deque_append
    rw [if_neg (by omega)]
    cases q with
    | nil => simp at hlen; omega
    | cons a q' =>
      have hl : q'.length + 1 = cap := by simpa using hlen
      have : (a :: q').length + 1 - cap = 1 := by
        simp only [List.length_cons]
        omega
      rw [this]
      simp

/-- Witness for C5: with capacity 3 and a full window `[10, 20, 30]`,
appending `40` evicts exactly the oldest entry `10`. -/
theorem reward_history_window_witness :
    deque_append 3 [10, 20, 30] 40 = ([10, 20, 30] : List ℤ).tail ++ [40] :=
  (reward_history_window 3 [10, 20, 30] 40).2.1 rfl (by decide)

/-- Counterexample to C6 as stated: after episode index 99 — at which
point exactly `min_episodes_criterion = 100` episodes have elapsed and the
window is full — with running average 476 > 475, the spec's condition says
to stop but the loop continues, because the code tests the 0-based index
`i = 99` against 100. -/
theorem stop_condition_counterexample :
    spec_stop_condition 99 476 = true ∧ stops_after 99 476 = false := by
  constructor
  · decide
  · decide

/-- C6 (amended). The training loop stops after episode `i` if and only if
the running average exceeds the success threshold AND strictly more than
`min_episodes_criterion` episodes have elapsed (`i + 1 ≥ 101`, i.e. the
0-based index `i` is at least the capacity), or the maximum episode count
is reached. -/
theorem stop_condition_amended (i : ℕ) (running_reward : ℚ) :
    stops_after i running_reward = true ↔
      ((reward_threshold < running_reward ∧
          min_episodes_criterion + 1 ≤ i + 1) ∨
        i + 1 = max_episodes) := by
  simp only [stops_after, break_cond, Bool.or_eq_true, Bool.and_eq_true,
    decide_eq_true_eq]
  constructor
  · rintro (⟨h1, h2⟩ | h)
    · exact Or.inl ⟨h1, by omega⟩
    · exact Or.inr h
  · rintro (⟨h1, h2⟩ | h)
    · exact Or.inl ⟨h1, by omega⟩
    · exact Or.inr h

/-- C10. Code bug: on every episode — whatever the environment, model,
initial state or step cap — `train_step` hits the `TypeError` of
`tf.expand_dims` on the un-stacked `action_probs` TensorArray that
`run_episode`'s `actions_probs` typo lets through, and aborts with no
return value.  It therefore never returns the episode's reward sum
`(run_episode ...).2.2.sum` claimed by the spec, and nothing is ever
appended to the Reward History. -/
theorem train_step_aborts {S : Type} (envStep : S → ℕ → S × ℤ × Bool)
    (model : S → List ℝ × ℝ) (choose : S → ℕ) (γ : ℝ) (s : S)
    (max_steps : ℕ) :
    train_step envStep model choose γ s max_steps = none ∧
    train_step envStep model choose γ s max_steps ≠
      some (run_episode envStep model choose s max_steps).2.2.sum := by
  exact ⟨rfl, by intro h; exact Option.noConfusion h⟩

/-- C1. With standardization disabled, `get_expected_return` returns a
sequence `G` of the same length as the reward sequence `R`, satisfying
`G[n-1] = R[n-1]` and `G[i] = R[i] + γ·G[i+1]` for `i < n-1`; in
particular on `R = [1,1,1]`, `γ = 0.5` it returns `[1.75, 1.5, 1.0]`. -/
theorem return_calculator_recurrence (R : List ℝ) (γ : ℝ) :
    (get_expected_return R γ false).length = R.length ∧
    (∀ i : ℕ, i + 1 = R.length →
      (get_expected_return R γ false).getD i 0 = R.getD i 0) ∧
    (∀ i : ℕ, i + 1 < R.length →
      (get_expected_return R γ false).getD i 0 =
        R.getD i 0 + γ * (get_expected_return R γ false).getD (i + 1) 0) ∧
    get_expected_return [1, 1, 1] (1 / 2) false = [7 / 4, 3 / 2, 1] := by
  refine ⟨?_, ?_, ?_, ?_⟩
  · simpa [get_expected_return] using raw_returns_length R γ
  · intro i hi
    simpa [get_expected_return] using raw_returns_last R γ i hi
  · intro i hi
    simpa [get_expected_return] using raw_returns_step R γ i hi
  · show raw_returns [1, 1, 1] (1 / 2) = [7 / 4, 3 / 2, 1]
    norm_num [raw_returns, discountLoop]

/-- Witness for C1: the recurrence instantiated on the concrete episode
`R = [1,1,1]`, `γ = 1/2` at index `0`. -/
theorem return_calculator_recurrence_witness :
    (get_expected_return [1, 1, 1] (1 / 2) false).getD 0 0 =
      ([1, 1, 1] : List ℝ).getD 0 0 +
        (1 / 2) * (get_expected_return [1, 1, 1] (1 / 2) false).getD 1 0 :=
  (return_calculator_recurrence [1, 1, 1] (1 / 2)).2.2.1 0 (by norm_num)

/-- C9. On the empty reward sequence, `get_expected_return` with
standardization disabled returns the empty sequence: the backward loop
runs zero times and the output length equals the input length `0`. -/
theorem return_calculator_empty (γ : ℝ) :
    get_expected_return [] γ false = [] ∧
    (get_expected_return [] γ false).length = ([] : List ℝ).length := by
  constructor
  · simp [get_expected_return, raw_returns, discountLoop]
  · simp [get_expected_return, raw_returns, discountLoop]

theorem sum_map_sub_div (a c : ℝ) : ∀ xs : List ℝ,
    (xs.map (fun x => (x - a) / c)).sum = (xs.sum - xs.length * a) / c
  | [] => by simp
  | x :: xs => by
    have ih := sum_map_sub_div a c xs
    simp only [List.map_cons, List.sum_cons, ih, List.length_cons]
    rw [div_add_div_same]
    congr 1
    push_cast
    ring

theorem sum_map_sq_div (m c : ℝ) : ∀ xs : List ℝ,
    (xs.map (fun x => ((x - m) / c) ^ 2)).sum =
      (xs.map (fun x => (x - m) ^ 2)).sum / c ^ 2
  | [] => by simp
  | x :: xs => by
    have ih := sum_map_sq_div m c xs
    simp only [List.map_cons, List.sum_cons, ih]
    rw [div_pow, div_add_div_same]

theorem mean_standardized (xs : List ℝ) (c : ℝ) (hne : xs ≠ []) :
    reduce_mean (xs.map (fun x => (x - reduce_mean xs) / c)) = 0 := by
  have hl : xs.length ≠ 0 := fun h => hne (List.length_eq_zero.mp h)
  have hn : (xs.length : ℝ) ≠ 0 := Nat.cast_ne_zero.mpr hl
  rw [reduce_mean, List.length_map, sum_map_sub_div]
  have h0 : xs.sum - (xs.length : ℝ) * reduce_mean xs = 0 := by
    rw [reduce_mean]
    field_simp
  rw [h0]
  simp

theorem variance_nonneg (xs : List ℝ) :
    0 ≤ reduce_mean (xs.map (fun x => (x - reduce_mean xs) ^ 2)) := by
  apply div_nonneg
  · apply List.sum_nonneg
    intro y hy
    obtain ⟨x, _, rfl⟩ := List.mem_map.mp hy
    positivity
  · positivity

theorem std_standardized (xs : List ℝ) (c : ℝ) (hne : xs ≠ []) (hc : 0 < c) :
    reduce_std (xs.map (fun x => (x - reduce_mean xs) / c)) =
      reduce_std xs / c := by
  rw [reduce_std, reduce_std, mean_standardized xs c hne]
  have hcomp : (xs.map (fun x => (x - reduce_mean xs) / c)).map
      (fun y => (y - 0) ^ 2) =
      xs.map (fun x => ((x - reduce_mean xs) / c) ^ 2) := by
    rw [List.map_map]
    simp [Function.comp]
  rw [hcomp]
  have hmean : ∀ m : ℝ, reduce_mean (xs.map (fun x => ((x - m) / c) ^ 2)) =
      reduce_mean (xs.map (fun x => (x - m) ^ 2)) / c ^ 2 := by
    intro m
    rw [reduce_mean, reduce_mean, List.length_map, List.length_map,
      sum_map_sq_div]
    ring
  rw [hmean (reduce_mean xs), Real.sqrt_div (variance_nonneg xs),
    Real.sqrt_sq hc.le]

theorem raw_eval : raw_returns [(1 : ℝ) / 2 ^ 24, 0] 0 = [1 / 2 ^ 24, 0] := by
  norm_num [raw_returns, discountLoop]

theorem std_eval : reduce_std [(1 : ℝ) / 2 ^ 24, 0] = 1 / 2 ^ 25 := by
  have h : reduce_mean ([(1 : ℝ) / 2 ^ 24, 0].map
      (fun x => (x - reduce_mean [(1 : ℝ) / 2 ^ 24, 0]) ^ 2)) =
      ((1 : ℝ) / 2 ^ 25) ^ 2 := by
    norm_num [reduce_mean]
  rw [reduce_std, h, Real.sqrt_sq (by norm_num)]

theorem out_eval :
    get_expected_return [(1 : ℝ) / 2 ^ 24, 0] 0 true = [1 / 5, -(1 / 5)] := by
  have h1 := raw_eval
  simp only [get_expected_return, h1, if_true, List.map_cons, List.map_nil]
  rw [std_eval]
  norm_num [reduce_mean, eps]

theorem std_out_eval : reduce_std [(1 : ℝ) / 5, -(1 / 5)] = 1 / 5 := by
  have h : reduce_mean ([(1 : ℝ) / 5, -(1 / 5)].map
      (fun x => (x - reduce_mean [(1 : ℝ) / 5, -(1 / 5)]) ^ 2)) =
      ((1 : ℝ) / 5) ^ 2 := by
    norm_num [reduce_mean]
  rw [reduce_std, h, Real.sqrt_sq (by norm_num)]

/-- Counterexample to C7 as stated: the reward sequence `[2⁻²⁴, 0]` with
`γ = 0` has discounted returns `[2⁻²⁴, 0]` of positive standard deviation
`2⁻²⁵`, yet the standardized returns are `[1/5, −1/5]`, whose standard
deviation `1/5` misses `1` by `4/5`, far beyond the epsilon tolerance
`2⁻²³`: when the variance is small, dividing by `std + eps` shrinks the
output well below unit variance. -/
theorem standardize_tolerance_counterexample :
    0 < reduce_std (raw_returns [(1 : ℝ) / 2 ^ 24, 0] 0) ∧
    ¬ |reduce_std (get_expected_return [(1 : ℝ) / 2 ^ 24, 0] 0 true) - 1| ≤
        eps := by
  constructor
  · rw [raw_eval, std_eval]
    norm_num
  · rw [out_eval, std_out_eval]
    have habs : |(1 : ℝ) / 5 - 1| = 4 / 5 := by
      rw [abs_of_neg (by norm_num)]
      norm_num
    rw [habs, eps]
    norm_num

/-- C7 (amended). For every reward sequence whose raw discounted returns
have positive standard deviation `σ`, standardization yields a sequence of
mean exactly `0` and standard deviation exactly `σ / (σ + eps)`, which is
strictly below `1` (approaching `1` only when `σ` dominates `eps`, with
shortfall `eps / (σ + eps)`, not bounded by `eps` itself). -/
theorem standardize_amended (R : List ℝ) (γ : ℝ)
    (hσ : 0 < reduce_std (raw_returns R γ)) :
    reduce_mean (get_expected_return R γ true) = 0 ∧
    reduce_std (get_expected_return R γ true) =
      reduce_std (raw_returns R γ) / (reduce_std (raw_returns R γ) + eps) ∧
    reduce_std (raw_returns R γ) / (reduce_std (raw_returns R γ) + eps) <
      1 := by
  have heps : 0 < eps := by norm_num [eps]
  have hne : raw_returns R γ ≠ [] := by
    intro h
    rw [h] at hσ
    simp [reduce_std, reduce_mean] at hσ
  have hout : get_expected_return R γ true =
      (raw_returns R γ).map (fun x => (x - reduce_mean (raw_returns R γ)) /
        (reduce_std (raw_returns R γ) + eps)) := by
    simp [get_expected_return]
  refine ⟨?_, ?_, ?_⟩
  · rw [hout]
    exact mean_standardized _ _ hne
  · rw [hout]
    exact std_standardized _ _ hne (by linarith)
  · rw [div_lt_one (by linarith)]
    linarith

/-- Witness for C7 (amended): the standardized returns of `[2⁻²⁴, 0]`
with `γ = 0` have mean `0` and standard deviation `σ / (σ + eps)` with
`σ = 2⁻²⁵`. -/
theorem standardize_amended_witness :
    reduce_mean (get_expected_return [(1 : ℝ) / 2 ^ 24, 0] 0 true) = 0 ∧
    reduce_std (get_expected_return [(1 : ℝ) / 2 ^ 24, 0] 0 true) =
      reduce_std (raw_returns [(1 : ℝ) / 2 ^ 24, 0] 0) /
        (reduce_std (raw_returns [(1 : ℝ) / 2 ^ 24, 0] 0) + eps) ∧
    reduce_std (raw_returns [(1 : ℝ) / 2 ^ 24, 0] 0) /
        (reduce_std (raw_returns [(1 : ℝ) / 2 ^ 24, 0] 0) + eps) < 1 :=
  standardize_amended [(1 : ℝ) / 2 ^ 24, 0] 0
    (by rw [raw_eval, std_eval]; norm_num)

/-- C8. The standardization step divides by `reduce_std returns + eps`
with `eps = 2⁻²³ > 0` and a non-negative standard deviation, so the
divisor is strictly positive for every reward sequence and discount —
including sequences whose returns are all equal (zero standard
deviation) — and no division by zero can occur. -/
theorem standardize_divisor_pos (R : List ℝ) (γ : ℝ) :
    0 < eps ∧ 0 ≤ reduce_std (raw_returns R γ) ∧
    0 < reduce_std (raw_returns R γ) + eps := by
  have h1 : 0 < eps := by norm_num [eps]
  have h2 : 0 ≤ reduce_std (raw_returns R γ) := Real.sqrt_nonneg _
  exact ⟨h1, h2, by linarith⟩

end ActorCritic
